import Mathlib

/-!
Verification of the mucap MIDI capture core: a shallow embedding of
`src/mucap/src/midistore.rs` (event log, note assembler, range caches,
bar queries) and of the selection-export encoder in
`src/mucap/src/ui/miditransfer.rs` (`MidiTransfers::new_selection`).

Rust `f32` times are modelled as exact rationals, MIDI 7-bit/4-bit
integers as naturals, and the `i64`/`u32` casts of the export encoder as
explicit modular arithmetic.  Fallible operations return the new state
paired with an optional error, mirroring `&mut self` methods that bail
early without mutating.
-/

namespace Mucap

-- Rational arithmetic is marked irreducible upstream; concrete runs of
-- the embedding are evaluated by `decide`, which needs it unfolded.
attribute [local semireducible] Rat.mul Rat.add Rat.sub Rat.inv

/-- Tagged MIDI channel-voice message, mirroring the `midly::MidiMessage`
variants stored by the log. -/
inductive MidiMsg
  | noteOff (key vel : ℕ)
  | noteOn (key vel : ℕ)
  | aftertouch (key vel : ℕ)
  | controlChange (num value : ℕ)
  | programChange (program : ℕ)
  | channelAftertouch (vel : ℕ)
  | pitchBend (lsb msb : ℕ)
deriving DecidableEq, Repr

/-- Result of `midly::live::LiveEvent::parse` on a 3-byte buffer, as used
by `MidiStore::add`: a channel message with its channel, a parsed
non-channel event (ignored by `add`), or a parse failure. -/
inductive ParseResult
  | midi (channel : ℕ) (message : MidiMsg)
  | other
  | failed
deriving DecidableEq, Repr

/-- Errors returned by `MidiStore::add` (the two `anyhow` failure paths:
the time-ordering bail and the `LiveEvent::parse` error). -/
inductive AddErr
  | orderViolation
  | parseFailure
deriving DecidableEq, Repr

/-- A note with links to its NoteOn/NoteOff events
(`midistore.rs`, `struct Note`).  While in-flight, `t_end` and `idx_off`
hold the placeholder value 0 set by `add_on`. -/
structure Note where
  t_start : ℚ
  idx_on : ℕ
  t_end : ℚ
  idx_off : ℕ
  channel : ℕ
  key : ℕ
  vel : ℕ
deriving DecidableEq, Repr

/-- A bar marker (`midistore.rs`, `struct Bar`). -/
structure Bar where
  bar_number : ℤ
  t : ℚ
deriving DecidableEq, Repr

/-- The store state (`midistore.rs`, `struct MidiStore`).  A store entry
`(f32, StoreEntry)` with `StoreEntry::MidiData { channel, data }` is
flattened to `(time, channel, message)`.  The transport snapshot and
`last_bar` memory only feed `add_bar`, which no claim touches, so they
are omitted. -/
structure MidiStore where
  store : List (ℚ × ℕ × MidiMsg)
  notes : List Note
  in_flight : List Note
  bars : List Bar
  note_range_cache : Option (ℕ × ℕ)
  time_range_cache : Option (ℚ × ℚ)
deriving DecidableEq, Repr

/-- `MidiStore::new()`: all collections empty, both caches absent. -/
def emptyStore : MidiStore :=
  { store := [], notes := [], in_flight := [], bars := []
    note_range_cache := none, time_range_cache := none }

/-- Parse of a 3-byte live event.  Status bytes `0x80..0xEF` decode to a
channel message with channel `b0 % 16`; used data bytes must be < 128;
system/realtime status bytes (`0xF0..`) decode to a non-channel event,
which `add` appends nothing for; anything else is a parse failure. -/
def parseLive (b0 b1 b2 : ℕ) : ParseResult :=
  if 255 < b0 then .failed
  else if b0 < 128 then .failed
  else if 240 ≤ b0 then .other
  else
    let s := b0 / 16
    let ch := b0 % 16
    if s = 12 then (if b1 < 128 then .midi ch (.programChange b1) else .failed)
    else if s = 13 then (if b1 < 128 then .midi ch (.channelAftertouch b1) else .failed)
    else if b1 < 128 ∧ b2 < 128 then
      if s = 8 then .midi ch (.noteOff b1 b2)
      else if s = 9 then .midi ch (.noteOn b1 b2)
      else if s = 10 then .midi ch (.aftertouch b1 b2)
      else if s = 11 then .midi ch (.controlChange b1 b2)
      else .midi ch (.pitchBend b1 b2)
    else .failed

/-- Time of the most recently appended event, defaulting to 0 for an
empty log: `self.store.last().map(|e| e.0).unwrap_or(0.0)`. -/
def lastTime (st : MidiStore) : ℚ :=
  match st.store.getLast? with
  | some e => e.1
  | none => 0

/-- `MidiStore::update_ranges`: widen the key cache by `note` and the
time cache by `time`, creating each cache on first observation. -/
def update_ranges (st : MidiStore) (note : ℕ) (time : ℚ) : MidiStore :=
  let nrc : Option (ℕ × ℕ) :=
    match st.note_range_cache with
    | some (note_min, note_max) =>
      if note < note_min then some (note, note_max)
      else if note_max < note then some (note_min, note)
      else some (note_min, note_max)
    | none => some (note, note)
  let trc : Option (ℚ × ℚ) :=
    match st.time_range_cache with
    | some (time_min, time_max) =>
      if time < time_min then some (time, time_max)
      else if time_max < time then some (time_min, time)
      else some (time_min, time_max)
    | none => some (time, time)
  { st with note_range_cache := nrc, time_range_cache := trc }

/-- Replace the first element satisfying `p` by `new`, if any: the
`iter_mut().filter(..).next()` overwrite in `add_on`. -/
def replaceFirst (p : Note → Bool) (new : Note) : List Note → Option (List Note)
  | [] => none
  | n :: rest =>
    if p n then some (new :: rest)
    else (replaceFirst p new rest).map (fun r => n :: r)

/-- Remove the first element satisfying `p`, returning it and the rest:
the `enumerate().filter(..).next()` plus `Vec::remove` in `add_off`. -/
def extractFirst (p : Note → Bool) : List Note → Option (Note × List Note)
  | [] => none
  | n :: rest =>
    if p n then some (n, rest)
    else (extractFirst p rest).map (fun r => (r.1, n :: r.2))

/-- `MidiStore::add_on`: on NoteOn, overwrite the first in-flight entry
with the same (key, channel) in place, or create a new entry and notify
the range caches. -/
def add_on (st : MidiStore) (time : ℚ) (idx : ℕ) (channel : ℕ)
    (message : MidiMsg) : MidiStore :=
  match message with
  | .noteOn key vel =>
    let new_note : Note :=
      { t_start := time, idx_on := idx, t_end := 0, idx_off := 0
        channel := channel, key := key, vel := vel }
    match replaceFirst (fun n => n.key == key && n.channel == channel)
        new_note st.in_flight with
    | some fl => { st with in_flight := fl }
    | none =>
      let st' := update_ranges st key time
      { st' with in_flight := st'.in_flight ++ [new_note] }
  | _ => st

/-- `MidiStore::add_off`: on NoteOff (or velocity-0 NoteOn), close the
first matching in-flight entry, notify the range caches, and append the
completed note; without a match the call is a logged no-op. -/
def add_off (st : MidiStore) (time : ℚ) (idx_off : ℕ) (channel : ℕ)
    (message : MidiMsg) : MidiStore :=
  let key? : Option ℕ :=
    match message with
    | .noteOff key _ => some key
    | .noteOn key vel => if vel = 0 then some key else none
    | _ => none
  match key? with
  | none => st
  | some key =>
    match extractFirst (fun n => n.key == key && n.channel == channel)
        st.in_flight with
    | none => st
    | some (note0, fl) =>
      let note := { note0 with idx_off := idx_off, t_end := time }
      let st' := update_ranges { st with in_flight := fl } note.key note.t_end
      { st' with notes := st'.notes ++ [note] }

/-- `MidiStore::add`: bail with an order violation when `time` is below
the last appended time (0 for an empty log), then parse; on a channel
message push the entry and dispatch NoteOn/NoteOff handling, with
velocity-0 NoteOn treated as NoteOff. -/
def add (st : MidiStore) (time : ℚ) (b0 b1 b2 : ℕ) : MidiStore × Option AddErr :=
  if time < lastTime st then (st, some .orderViolation)
  else
    match parseLive b0 b1 b2 with
    | .failed => (st, some .parseFailure)
    | .other => (st, none)
    | .midi channel message =>
      let st1 : MidiStore := { st with store := st.store ++ [(time, channel, message)] }
      let idx := st1.store.length - 1
      match message with
      | .noteOn _ vel =>
        if vel = 0 then (add_off st1 time idx channel message, none)
        else (add_on st1 time idx channel message, none)
      | .noteOff _ _ => (add_off st1 time idx channel message, none)
      | _ => (st1, none)

/-- One append request: time plus the three raw bytes. -/
def AddOp : Type := ℚ × ℕ × ℕ × ℕ

/-- Run a sequence of `add` calls against a starting store, keeping the
resulting state of each call (errors leave the state as returned). -/
def addMany (st : MidiStore) (ops : List AddOp) : MidiStore :=
  ops.foldl (fun s op => (add s op.1 op.2.1 op.2.2.1 op.2.2.2).1) st

/-- Run a sequence of `add` calls from the empty store. -/
def runAdds (ops : List AddOp) : MidiStore :=
  addMany emptyStore ops

/-- `MidiStore::note_range`: the cached key bounds. -/
def note_range (st : MidiStore) : Option (ℕ × ℕ) :=
  st.note_range_cache

/-- `MidiStore::time_range`: the cached time bounds. -/
def time_range (st : MidiStore) : Option (ℚ × ℚ) :=
  st.time_range_cache

/-- The overlap test `t0 < note.t_end && t1 > note.t_start` used by
`notes_in_time` and as the selection flag of `notes_in_time_select`. -/
def selNote (t0 t1 : ℚ) (n : Note) : Bool :=
  decide (t0 < n.t_end) && decide (t1 > n.t_start)

/-- `MidiStore::notes_in_time`: completed notes overlapping `[t0, t1]`. -/
def notes_in_time (st : MidiStore) (t0 t1 : ℚ) : List Note :=
  st.notes.filter (fun n => selNote t0 t1 n)

/-- `MidiStore::notes_in_time_select`: notes overlapping `[t0, t1]`
paired with their overlap flag against `[sel0, sel1]`. -/
def notes_in_time_select (st : MidiStore) (t0 t1 sel0 sel1 : ℚ) :
    List (Note × Bool) :=
  (notes_in_time st t0 t1).map (fun n => (n, selNote sel0 sel1 n))

/-- The composition `notes_in_time_select(-f32::INFINITY, f32::INFINITY,
sel0, sel1)` used throughout `new_selection`: every stored time is a
finite float (a rational here), so the infinite outer window admits all
completed notes and the iterator is the full note list paired with the
selection flag. -/
def notesAllSelect (st : MidiStore) (sel0 sel1 : ℚ) : List (Note × Bool) :=
  st.notes.map (fun n => (n, selNote sel0 sel1 n))

/-- `MidiStore::get_bars`: bars whose number is divisible by `n`. -/
def get_bars (st : MidiStore) (n : ℤ) : List Bar :=
  st.bars.filter (fun b => b.bar_number % n == 0)

/-- The reduction step of `nearest_bar`: keep `b1` while it is strictly
closer to `time`, otherwise take `b2`. -/
def pick (time : ℚ) (b1 b2 : Bar) : Bar :=
  if |b1.t - time| < |b2.t - time| then b1 else b2

/-- `MidiStore::nearest_bar`: `Iterator::reduce` of `pick` over
`get_bars n`, so the first filtered bar seeds a left fold. -/
def nearest_bar (st : MidiStore) (time : ℚ) (n : ℤ) : Option Bar :=
  match get_bars st n with
  | [] => none
  | b :: rest => some (rest.foldl (pick time) b)

/-- Kind of an SMF track event pushed by `new_selection`: a channel
message or the End-of-Track meta event. -/
inductive TrackKind
  | midi (channel : ℕ) (message : MidiMsg)
  | endOfTrack
deriving DecidableEq, Repr

/-- A track event: delta time in ticks plus its kind. -/
structure TrackEvt where
  delta : ℕ
  kind : TrackKind
deriving DecidableEq, Repr

/-- Rust `f32::round`: round half away from zero, on exact rationals. -/
def roundAway (q : ℚ) : ℤ :=
  if q < 0 then -(⌊-q + 1/2⌋) else ⌊q + 1/2⌋

/-- Rust `as u32` truncation of a (possibly negative) `i64` value. -/
def as_u32 (x : ℤ) : ℕ :=
  (x % 4294967296).toNat

/-- The stored event at index `i` as a track-event kind, defaulting to
the meta event for an out-of-range index (never hit on valid stores). -/
def storeKind (st : MidiStore) (i : ℕ) : TrackKind :=
  match st.store[i]? with
  | some e => .midi e.2.1 e.2.2
  | none => .endOfTrack

/-- The hanging-note loop of `new_selection` (miditransfer.rs:107-123):
for each note, re-issue its stored NoteOn at delta 0 when the note is
selected, starts before `t0`, and its clipped end tick is positive. -/
def onsLoop (st : MidiStore) (t0 pps : ℚ) : List (Note × Bool) → List TrackEvt
  | [] => []
  | ns :: rest =>
    if ns.2 && decide (ns.1.t_start < t0)
        && decide (0 < roundAway ((ns.1.t_end - t0) * pps)) then
      match st.store[ns.1.idx_on]? with
      | some e => ⟨0, .midi e.2.1 e.2.2⟩ :: onsLoop st t0 pps rest
      | none => onsLoop st t0 pps rest
    else onsLoop st t0 pps rest

/-- Hanging NoteOns written at the head of the track. -/
def hangingOns (st : MidiStore) (t0 t1 pps : ℚ) : List TrackEvt :=
  onsLoop st t0 pps (notesAllSelect st t0 t1)

/-- The raw-event loop of `new_selection` (miditransfer.rs:127-146):
events with `t0 ≤ time ≤ t1` are quantized, emitted at the delta to the
running tick, and the running tick is advanced; the second component is
the final `sum_delta`. -/
def eventsLoop (t0 t1 pps : ℚ) : List (ℚ × ℕ × MidiMsg) → ℤ → List TrackEvt × ℤ
  | [], sum => ([], sum)
  | e :: rest, sum =>
    if decide (t0 ≤ e.1) && decide (e.1 ≤ t1) then
      let q := roundAway ((e.1 - t0) * pps)
      let delta := as_u32 (q - sum)
      let r := eventsLoop t0 t1 pps rest q
      (⟨delta, .midi e.2.1 e.2.2⟩ :: r.1, r.2)
    else eventsLoop t0 t1 pps rest sum

/-- The incomplete-note loop of `new_selection` (miditransfer.rs:173-188):
selected notes with `t_end > t1` re-issue their stored NoteOff at the
current `delta_end`, advance `sum_delta` by it, and zero it; returns the
events, the final `delta_end`, and the final `sum_delta`. -/
def offsLoop (st : MidiStore) (t1 : ℚ) :
    List (Note × Bool) → ℕ → ℤ → List TrackEvt × ℕ × ℤ
  | [], d, sum => ([], d, sum)
  | ns :: rest, d, sum =>
    if ns.2 && decide (ns.1.t_end > t1) then
      match st.store[ns.1.idx_off]? with
      | some e =>
        let r := offsLoop st t1 rest 0 (sum + d)
        (⟨d, .midi e.2.1 e.2.2⟩ :: r.1, r.2)
      | none => offsLoop st t1 rest d sum
    else offsLoop st t1 rest d sum

/-- Pulses per second: `480 * (tempo / 60)` at the fixed 480 PPQN. -/
def ppsOf (tempo : ℚ) : ℚ :=
  480 * (tempo / 60)

/-- The final tick of the window: `round((t1 - t0) * pps) as i64`. -/
def endTickOf (t0 t1 pps : ℚ) : ℤ :=
  roundAway ((t1 - t0) * pps)

/-- The initial trailing delta (miditransfer.rs:151):
`((end_tick - sum_delta) as u32).saturating_sub(1)`. -/
def deltaEnd0 (endTick sum : ℤ) : ℕ :=
  as_u32 (endTick - sum) - 1

/-- The running tick after the raw-event loop. -/
def sumAfterEvents (st : MidiStore) (t0 t1 tempo : ℚ) : ℤ :=
  (eventsLoop t0 t1 (ppsOf tempo) st.store 0).2

/-- The trailing delta of this export. -/
def exportDeltaEnd (st : MidiStore) (t0 t1 tempo : ℚ) : ℕ :=
  deltaEnd0 (endTickOf t0 t1 (ppsOf tempo)) (sumAfterEvents st t0 t1 tempo)

/-- The selected notes still sounding past the window end. -/
def incompleteNotes (st : MidiStore) (t0 t1 : ℚ) : List Note :=
  st.notes.filter (fun n => selNote t0 t1 n && decide (n.t_end > t1))

/-- State of the incomplete-note loop for this export. -/
def offsResult (st : MidiStore) (t0 t1 tempo : ℚ) : List TrackEvt × ℕ × ℤ :=
  offsLoop st t1 (notesAllSelect st t0 t1) (exportDeltaEnd st t0 t1 tempo)
    (sumAfterEvents st t0 t1 tempo)

/-- The full track written by `new_selection`: hanging NoteOns, the
quantized raw events, the incomplete-note NoteOffs, then End-of-Track at
whatever `delta_end` remains after that loop. -/
def buildTrack (st : MidiStore) (t0 t1 tempo : ℚ) : List TrackEvt :=
  hangingOns st t0 t1 (ppsOf tempo)
    ++ (eventsLoop t0 t1 (ppsOf tempo) st.store 0).1
    ++ (offsResult st t0 t1 tempo).1
    ++ [⟨(offsResult st t0 t1 tempo).2.1, .endOfTrack⟩]

/-- Failure classes of the export path. -/
inductive ExpErr
  | emptySel
  | fileFail
  | clipFail
deriving DecidableEq, Repr

/-- Outcomes of the external collaborators consulted by `new_selection`:
temp-file creation, `Smf::save`, `Clipboard::new` (consulted when no
clipboard is cached), and the file-list clipboard offer. -/
structure Collab where
  tempfileOk : Bool
  saveOk : Bool
  clipboardNewOk : Bool
  clipboardSetOk : Bool
deriving DecidableEq, Repr

/-- Observable result of one `new_selection` call: the track written to
the SMF ([] when aborted before encoding), whether `Smf::save`
succeeded, whether the temp-file handle was stored in `self.midifile`
(only then does it survive the call), whether the path reached the
clipboard, and the failure class if any. -/
structure ExportResult where
  track : List TrackEvt
  fileSaved : Bool
  handleRetained : Bool
  clipboardOffered : Bool
  err : Option ExpErr
deriving DecidableEq, Repr

/-- Control flow of `MidiTransfers::new_selection` (miditransfer.rs:71-243):
count `notes_in_time_select(-inf, inf, t0, t1)` and return early at 0;
create the temp file; build and save the track; acquire the clipboard if
none is cached; offer the file list; only on full success store the
temp-file handle in `self.midifile`. -/
def new_selection (st : MidiStore) (t0 t1 tempo : ℚ) (hadClipboard : Bool)
    (io : Collab) : ExportResult :=
  if (notesAllSelect st t0 t1).length == 0 then
    ⟨[], false, false, false, some .emptySel⟩
  else if !io.tempfileOk then
    ⟨[], false, false, false, some .fileFail⟩
  else
    let track := buildTrack st t0 t1 tempo
    if !io.saveOk then ⟨track, false, false, false, some .fileFail⟩
    else if !hadClipboard && !io.clipboardNewOk then
      ⟨track, true, false, false, some .clipFail⟩
    else if !io.clipboardSetOk then
      ⟨track, true, false, false, some .clipFail⟩
    else ⟨track, true, true, true, none⟩

/-- Whether the exported file is still on disk after `new_selection`
returns: the temporary-file collaborator removes the file when its
handle is dropped (spec §3: the export file is released with its
handle), so the file survives the call only when the handle was stored
in `self.midifile`. -/
def fileOnDiskAfter (r : ExportResult) : Bool :=
  r.fileSaved && r.handleRetained

/-- Modelled from the spec (claim C1): the set of completed and
in-flight notes overlapping the window under the strict overlap test. -/
def specOverlapSet (st : MidiStore) (t0 t1 : ℚ) : List Note :=
  (st.notes ++ st.in_flight).filter (fun n => selNote t0 t1 n)

/-- Modelled from the spec (claim C5): the incomplete-note NoteOffs as
the spec describes them — the first at the trailing delta, every
subsequent one at delta 0, each re-issuing its stored closing event. -/
def specIncompleteOffs (st : MidiStore) (d : ℕ) : List Note → List TrackEvt
  | [] => []
  | x :: rest =>
    ⟨d, storeKind st x.idx_off⟩ :: rest.map (fun y => ⟨0, storeKind st y.idx_off⟩)

/-- Modelled from the spec (claim C8): a left-fold minimization in which
the first minimal element wins, i.e. the accumulator is replaced only by
a strictly closer bar. -/
def nearestBarFirstTie (st : MidiStore) (time : ℚ) (n : ℤ) : Option Bar :=
  match get_bars st n with
  | [] => none
  | b :: rest =>
    some (rest.foldl (fun b1 b2 => if |b2.t - time| < |b1.t - time| then b2 else b1) b)

/-- The hanging-note condition of claim C6: overlapping, started before
the window, and with a positive clipped end tick. -/
def hangingCond (t0 t1 pps : ℚ) (n : Note) : Bool :=
  selNote t0 t1 n && decide (n.t_start < t0)
    && decide (0 < roundAway ((n.t_end - t0) * pps))

/-- Bound widening: whenever `a` holds bounds, `b` holds bounds at least
as wide. -/
def widens {α : Type} [LE α] (a b : Option (α × α)) : Prop :=
  ∀ lo hi, a = some (lo, hi) → ∃ lo2 hi2, b = some (lo2, hi2) ∧ lo2 ≤ lo ∧ hi ≤ hi2

/-- The range caches are absent exactly while no note has ever started
or completed, witnessed by both note collections being empty. -/
def cachesNoneIffEmpty (st : MidiStore) : Prop :=
  (st.note_range_cache = none ↔ st.in_flight = [] ∧ st.notes = []) ∧
  (st.time_range_cache = none ↔ st.in_flight = [] ∧ st.notes = [])

/-- NoteOn raw bytes on channel `ch`. -/
def onBytes (ch key vel : ℕ) : ℕ × ℕ × ℕ := (144 + ch, key, vel)

/-- NoteOff raw bytes on channel `ch`. -/
def offBytes (ch key vel : ℕ) : ℕ × ℕ × ℕ := (128 + ch, key, vel)

/-- A store holding one completed note spanning `[0, 1]` on key 60. -/
def oneNoteStore : MidiStore :=
  runAdds [((0 : ℚ), 144, 60, 100), ((1 : ℚ), 128, 60, 64)]

/-- Collaborators that all succeed. -/
def allOk : Collab :=
  { tempfileOk := true, saveOk := true, clipboardNewOk := true, clipboardSetOk := true }

/-- Collaborators where only the clipboard file-list offer fails. -/
def clipSetFails : Collab :=
  { tempfileOk := true, saveOk := true, clipboardNewOk := true, clipboardSetOk := false }

/-- A store with one completed note `[1, 2]` on key 60: window `[0, 4]`
then has no incomplete note and a positive trailing delta. -/
def c4Store : MidiStore :=
  runAdds [((1 : ℚ), 144, 60, 100), ((2 : ℚ), 128, 60, 64)]

/-- A store with two completed notes `[0, 5]` (key 60) and `[1/2, 6]`
(key 64): both are incomplete for the window `[1, 2]`. -/
def c5Store : MidiStore :=
  runAdds [((0 : ℚ), 144, 60, 100), ((1/2 : ℚ), 144, 64, 100),
    ((5 : ℚ), 128, 60, 64), ((6 : ℚ), 128, 64, 64)]

/-- A store with completed notes `[0, 3]` (key 60) and `[4, 6]` (key 64):
the first hangs into the window `[2, 5]`. -/
def c6Store : MidiStore :=
  runAdds [((0 : ℚ), 144, 60, 100), ((3 : ℚ), 128, 60, 64),
    ((4 : ℚ), 144, 64, 100), ((6 : ℚ), 128, 64, 64)]

/-- A store with a single in-flight note on (channel 0, key 60). -/
def c7Store : MidiStore :=
  runAdds [((0 : ℚ), 144, 60, 100)]

/-- Two bars numbered 0 at times 1 and 3: equidistant from time 2. -/
def tieBarStore : MidiStore :=
  { emptyStore with bars := [⟨0, 1⟩, ⟨0, 3⟩] }

/-- C1 (code evaluated at the failing input): with one completed note
spanning `[0, 1]` and the window `[5, 6]`, the claim's overlap set over
completed and in-flight notes is empty, yet the export does not fail
with the empty-selection error: the guard counts every completed note
(`notes_in_time_select(-inf, inf, ..).count()`), the count is 1, and the
export proceeds through file creation and save. -/
theorem C1_export_guard_ignores_overlap :
    specOverlapSet oneNoteStore 5 6 = [] ∧
    (new_selection oneNoteStore 5 6 120 false allOk).err ≠ some ExpErr.emptySel ∧
    (new_selection oneNoteStore 5 6 120 false allOk).fileSaved = true := by
  decide

/-- C2 counterexample: on the empty store — where no most recently
appended event exists, so the claim's condition cannot hold — `add`
with a negative time still fails with the order violation, because the
code compares against a default last time of 0. -/
theorem C2_counterexample :
    (add emptyStore (-1) 128 60 64).2 = some AddErr.orderViolation ∧
    emptyStore.store.getLast? = none := by
  decide

/-- C3 counterexample: when the MIDI file was saved but the clipboard
file-list offer fails, the temp-file handle is not stored in
`self.midifile`, so the file does not remain on disk after the call —
the handle is dropped and the temporary file is removed with it. -/
theorem C3_counterexample :
    (new_selection oneNoteStore 0 2 120 false clipSetFails).fileSaved = true ∧
    (new_selection oneNoteStore 0 2 120 false clipSetFails).err = some ExpErr.clipFail ∧
    (new_selection oneNoteStore 0 2 120 false clipSetFails).handleRetained = false ∧
    fileOnDiskAfter (new_selection oneNoteStore 0 2 120 false clipSetFails) = false := by
  decide

/-- C4 counterexample: for a note `[1, 2]` inside the window `[0, 4]` at
tempo 60 no incomplete-note NoteOff is re-issued, and the End-of-Track
marker is appended at the trailing delta 959, not at 0 as the claim
states — the code keeps `delta_end` when step 4 never fired and zeroes
it when it did, the opposite of the claim. -/
theorem C4_counterexample :
    incompleteNotes c4Store 0 4 = [] ∧
    (buildTrack c4Store 0 4 60).getLast? = some ⟨959, TrackKind.endOfTrack⟩ ∧
    (959 : ℕ) ≠ 0 := by
  decide

/-- C8 counterexample: with bars numbered 0 at times 1 and 3 and query
time 2, both bars are equally close but `nearest_bar` returns the bar at
time 3 — the `reduce` keeps the accumulator only when strictly closer,
so the last minimal element wins, not the first as the claim states. -/
theorem C8_counterexample :
    nearest_bar tieBarStore 2 1 = some ⟨0, 3⟩ ∧
    nearestBarFirstTie tieBarStore 2 1 = some ⟨0, 1⟩ ∧
    |(1 : ℚ) - 2| = |(3 : ℚ) - 2| ∧
    (some (⟨0, 3⟩ : Bar)) ≠ some ⟨0, 1⟩ := by
  decide

/-- If some element of `l` satisfies `p`, the first-match overwrite
succeeds. -/
theorem replaceFirst_of_mem (p : Note → Bool) (x : Note) :
    ∀ l : List Note, (∃ n ∈ l, p n = true) → ∃ r, replaceFirst p x l = some r := by
  intro l
  induction l with
  | nil => rintro ⟨n, hn, _⟩; cases hn
  | cons a l ih =>
    rintro ⟨n, hn, hpn⟩
    by_cases ha : p a
    · exact ⟨x :: l, by simp [replaceFirst, ha]⟩
    · rcases List.mem_cons.mp hn with hn | hn
      · subst hn; exact absurd hpn (by simp [ha])
      · rcases ih ⟨n, hn, hpn⟩ with ⟨r, hr⟩
        exact ⟨a :: r, by simp [replaceFirst, ha, hr]⟩

/-- First-match overwrite on an explicit split: everything before the
first match is kept, the match is replaced, the tail is kept. -/
theorem replaceFirst_append (p : Note → Bool) (x : Note) (l1 l2 : List Note)
    (old : Note) (h1 : ∀ y ∈ l1, p y = false) (ho : p old = true) :
    replaceFirst p x (l1 ++ old :: l2) = some (l1 ++ x :: l2) := by
  induction l1 with
  | nil => simp [replaceFirst, ho]
  | cons a l ih =>
    have ha : p a = false := h1 a (by simp)
    simp [replaceFirst, ha, ih (fun y hy => h1 y (by simp [hy]))]

/-- The `add_on` overwrite branch: with a first matching in-flight entry
at an explicit position, the entry is replaced in place by the fresh
note and nothing else in the store changes. -/
theorem add_on_overwrite (st : MidiStore) (time : ℚ) (idx ch key vel : ℕ)
    (l1 l2 : List Note) (old : Note)
    (hsplit : st.in_flight = l1 ++ old :: l2)
    (hold : old.key = key ∧ old.channel = ch)
    (hl1 : ∀ y ∈ l1, ¬(y.key = key ∧ y.channel = ch)) :
    add_on st time idx ch (.noteOn key vel) =
      { st with in_flight :=
          l1 ++ { t_start := time, idx_on := idx, t_end := 0, idx_off := 0,
                  channel := ch, key := key, vel := vel } :: l2 } := by
  have hrf := replaceFirst_append (fun n => n.key == key && n.channel == ch)
      { t_start := time, idx_on := idx, t_end := 0, idx_off := 0,
        channel := ch, key := key, vel := vel } l1 l2 old
      (fun y hy => by
        have := hl1 y hy
        simp only [Bool.and_eq_false_iff, beq_eq_false_iff_ne, ne_eq]
        by_cases hk : y.key = key
        · exact Or.inr (fun hc => this ⟨hk, hc⟩)
        · exact Or.inl hk)
      (by simp [hold.1, hold.2])
  simp [add_on, hsplit, hrf]

/-- The `add` path to `add_on` for a positive-velocity NoteOn: the order
check passes, the event is pushed, and `add_on` runs at the new last
index. -/
theorem add_noteOn_pos (st : MidiStore) (time : ℚ) (b0 b1 b2 ch key vel : ℕ)
    (ht : ¬ time < lastTime st)
    (hp : parseLive b0 b1 b2 = .midi ch (.noteOn key vel))
    (hv : vel ≠ 0) :
    add st time b0 b1 b2 =
      (add_on { st with store := st.store ++ [(time, ch, .noteOn key vel)] }
        time st.store.length ch (.noteOn key vel), none) := by
  simp [add, ht, hp, hv]

/-- `update_ranges` never touches the event log. -/
theorem update_ranges_store (st : MidiStore) (k : ℕ) (t : ℚ) :
    (update_ranges st k t).store = st.store := rfl

/-- `add_on` never touches the event log. -/
theorem add_on_store (st : MidiStore) (time : ℚ) (idx ch : ℕ) (msg : MidiMsg) :
    (add_on st time idx ch msg).store = st.store := by
  cases msg with
  | noteOn key vel =>
    rcases hrf : replaceFirst (fun n => n.key == key && n.channel == ch)
        { t_start := time, idx_on := idx, t_end := 0, idx_off := 0,
          channel := ch, key := key, vel := vel } st.in_flight with - | fl
    · simp [add_on, hrf, update_ranges_store]
    · simp [add_on, hrf]
  | noteOff key vel => rfl
  | aftertouch key vel => rfl
  | controlChange num value => rfl
  | programChange program => rfl
  | channelAftertouch vel => rfl
  | pitchBend lsb msb => rfl

/-- `add_off` never touches the event log. -/
theorem add_off_store (st : MidiStore) (time : ℚ) (idx ch : ℕ) (msg : MidiMsg) :
    (add_off st time idx ch msg).store = st.store := by
  cases msg with
  | noteOff key vel =>
    rcases hex : extractFirst (fun n => n.key == key && n.channel == ch)
        st.in_flight with - | ⟨note0, fl⟩
    · simp [add_off, hex]
    · simp [add_off, hex, update_ranges_store]
  | noteOn key vel =>
    by_cases hv : vel = 0
    · subst hv
      rcases hex : extractFirst (fun n => n.key == key && n.channel == ch)
          st.in_flight with - | ⟨note0, fl⟩
      · simp [add_off, hex]
      · simp [add_off, hex, update_ranges_store]
    · simp [add_off, hv]
  | aftertouch key vel => rfl
  | controlChange num value => rfl
  | programChange program => rfl
  | channelAftertouch vel => rfl
  | pitchBend lsb msb => rfl

/-- C2 (amended): `add` fails with the order violation exactly when
`time` is strictly below the time of the most recently appended event,
taken as 0 when the log is empty; every failing `add` (order violation
or parse failure) leaves the store completely unchanged, so log,
completed notes, and in-flight set are as before the call; and a call
that passes the order check and whose bytes decode to a channel message
succeeds and appends exactly that event to the log. -/
theorem C2_add_order_spec (st : MidiStore) (time : ℚ) (b0 b1 b2 : ℕ) :
    ((add st time b0 b1 b2).2 = some AddErr.orderViolation ↔ time < lastTime st) ∧
    (∀ e, (add st time b0 b1 b2).2 = some e → (add st time b0 b1 b2).1 = st) ∧
    (∀ ch msg, parseLive b0 b1 b2 = .midi ch msg → ¬ time < lastTime st →
      (add st time b0 b1 b2).2 = none ∧
      (add st time b0 b1 b2).1.store = st.store ++ [(time, ch, msg)]) := by
  by_cases ht : time < lastTime st
  · refine ⟨by simp [add, ht], by simp [add, ht], ?_⟩
    intro ch msg hp hnot
    exact absurd ht hnot
  · refine ⟨?_, ?_, ?_⟩
    · rcases hp : parseLive b0 b1 b2 with ⟨ch, msg⟩ | - | -
      · rcases msg with ⟨k, v⟩ | ⟨k, v⟩ | ⟨k, v⟩ | ⟨c, v⟩ | p | v | ⟨l, m⟩
        · simp [add, ht, hp]
        · by_cases hv : v = 0 <;> simp [add, ht, hp, hv]
        all_goals simp [add, ht, hp]
      · simp [add, ht, hp]
      · simp [add, ht, hp]
    · rcases hp : parseLive b0 b1 b2 with ⟨ch, msg⟩ | - | -
      · rcases msg with ⟨k, v⟩ | ⟨k, v⟩ | ⟨k, v⟩ | ⟨c, v⟩ | p | v | ⟨l, m⟩
        · simp [add, ht, hp]
        · by_cases hv : v = 0 <;> simp [add, ht, hp, hv]
        all_goals simp [add, ht, hp]
      · simp [add, ht, hp]
      · simp [add, ht, hp]
    · intro ch msg hp _
      rcases msg with ⟨k, v⟩ | ⟨k, v⟩ | ⟨k, v⟩ | ⟨c, v⟩ | p | v | ⟨l, m⟩
      · exact ⟨by simp [add, ht, hp], by simp [add, ht, hp, add_off_store]⟩
      · by_cases hv : v = 0
        · subst hv
          exact ⟨by simp [add, ht, hp], by simp [add, ht, hp, add_off_store]⟩
        · exact ⟨by simp [add, ht, hp, hv], by simp [add, ht, hp, hv, add_on_store]⟩
      · exact ⟨by simp [add, ht, hp], by simp [add, ht, hp]⟩
      · exact ⟨by simp [add, ht, hp], by simp [add, ht, hp]⟩
      · exact ⟨by simp [add, ht, hp], by simp [add, ht, hp]⟩
      · exact ⟨by simp [add, ht, hp], by simp [add, ht, hp]⟩
      · exact ⟨by simp [add, ht, hp], by simp [add, ht, hp]⟩

/-- C2 witness: a failing call on a concrete store leaves it unchanged,
and a succeeding call on the same store appends the decoded event. -/
theorem C2_add_order_witness :
    ((add oneNoteStore (1/2) 128 60 64).2 = some AddErr.orderViolation ∧
     (add oneNoteStore (1/2) 128 60 64).1 = oneNoteStore) ∧
    ((add oneNoteStore 2 144 64 100).2 = none ∧
     (add oneNoteStore 2 144 64 100).1.store =
       oneNoteStore.store ++ [((2 : ℚ), 0, MidiMsg.noteOn 64 100)]) :=
  ⟨⟨by decide,
    (C2_add_order_spec oneNoteStore (1/2) 128 60 64).2.1 AddErr.orderViolation (by decide)⟩,
   (C2_add_order_spec oneNoteStore 2 144 64 100).2.2 0 (MidiMsg.noteOn 64 100)
     (by decide) (by decide)⟩

/-- C3 (amended): when the temp file was created and the save succeeded
but the clipboard offer fails, the failure is reported as the clipboard
error and the save is not undone by the encoder, but the temp-file
handle is not stored in `self.midifile`, so the file is released with
the dropped handle instead of remaining on disk. -/
theorem C3_clipboard_failure_spec (st : MidiStore) (t0 t1 tempo : ℚ) (io : Collab)
    (hne : (notesAllSelect st t0 t1).length ≠ 0)
    (htf : io.tempfileOk = true) (hsv : io.saveOk = true)
    (hcn : io.clipboardNewOk = true) (hcs : io.clipboardSetOk = false) :
    (new_selection st t0 t1 tempo false io).fileSaved = true ∧
    (new_selection st t0 t1 tempo false io).handleRetained = false ∧
    (new_selection st t0 t1 tempo false io).err = some ExpErr.clipFail ∧
    fileOnDiskAfter (new_selection st t0 t1 tempo false io) = false := by
  simp [new_selection, fileOnDiskAfter, htf, hsv, hcn, hcs, hne]

/-- C3 witness: the one-note store with the failing clipboard offer. -/
theorem C3_clipboard_failure_witness :
    (new_selection oneNoteStore 0 2 120 false clipSetFails).fileSaved = true ∧
    (new_selection oneNoteStore 0 2 120 false clipSetFails).handleRetained = false ∧
    (new_selection oneNoteStore 0 2 120 false clipSetFails).err = some ExpErr.clipFail ∧
    fileOnDiskAfter (new_selection oneNoteStore 0 2 120 false clipSetFails) = false :=
  C3_clipboard_failure_spec oneNoteStore 0 2 120 clipSetFails (by decide) rfl rfl rfl rfl

/-- C7: a NoteOn with positive velocity for an already in-flight
(channel, key) overwrites the in-flight entry in place with the new
start time, velocity, and log index, and appends nothing to the
completed notes — the overwritten instance is discarded. -/
theorem C7_retrigger_overwrite (st : MidiStore) (time : ℚ)
    (b0 b1 b2 ch key vel : ℕ) (l1 l2 : List Note) (old : Note)
    (ht : ¬ time < lastTime st)
    (hp : parseLive b0 b1 b2 = .midi ch (.noteOn key vel))
    (hv : vel ≠ 0)
    (hsplit : st.in_flight = l1 ++ old :: l2)
    (hold : old.key = key ∧ old.channel = ch)
    (hl1 : ∀ y ∈ l1, ¬(y.key = key ∧ y.channel = ch)) :
    (add st time b0 b1 b2).1.in_flight =
      l1 ++ { t_start := time, idx_on := st.store.length, t_end := 0, idx_off := 0,
              channel := ch, key := key, vel := vel } :: l2 ∧
    (add st time b0 b1 b2).1.notes = st.notes := by
  have h2 := add_on_overwrite
      { st with store := st.store ++ [(time, ch, MidiMsg.noteOn key vel)] }
      time st.store.length ch key vel l1 l2 old hsplit hold hl1
  rw [add_noteOn_pos st time b0 b1 b2 ch key vel ht hp hv, h2]
  exact ⟨rfl, rfl⟩

/-- C7 witness: the overwrite applied to a store with one in-flight note
on (channel 0, key 60), together with the claim's retrigger scenario:
NoteOn at 0 with velocity 100, NoteOn at 1/2 with velocity 80, NoteOff
at 1 yield exactly one completed note starting at 1/2 with velocity 80. -/
theorem C7_retrigger_overwrite_witness :
    ((add c7Store (1/2) 144 60 80).1.in_flight =
      [] ++ { t_start := 1/2, idx_on := c7Store.store.length, t_end := 0, idx_off := 0,
              channel := 0, key := 60, vel := 80 } :: [] ∧
     (add c7Store (1/2) 144 60 80).1.notes = c7Store.notes) ∧
    (runAdds [((0 : ℚ), 144, 60, 100), ((1/2 : ℚ), 144, 60, 80),
        ((1 : ℚ), 128, 60, 64)]).notes =
      [{ t_start := 1/2, idx_on := 1, t_end := 1, idx_off := 2,
         channel := 0, key := 60, vel := 80 }] :=
  ⟨C7_retrigger_overwrite c7Store (1/2) 144 60 80 0 60 80 [] []
      { t_start := 0, idx_on := 0, t_end := 0, idx_off := 0,
        channel := 0, key := 60, vel := 100 }
      (by decide) (by decide) (by decide) (by decide) (by decide) (by decide),
   by decide⟩

/-- C10: a NoteOn with positive velocity that overwrites an existing
in-flight entry for the same (channel, key) leaves both range caches
completely unchanged — only new in-flight entries and note closures
notify the caches. -/
theorem C10_retrigger_caches_unchanged (st : MidiStore) (time : ℚ)
    (b0 b1 b2 ch key vel : ℕ)
    (ht : ¬ time < lastTime st)
    (hp : parseLive b0 b1 b2 = .midi ch (.noteOn key vel))
    (hv : vel ≠ 0)
    (hex : ∃ n ∈ st.in_flight, n.key = key ∧ n.channel = ch) :
    (add st time b0 b1 b2).1.note_range_cache = st.note_range_cache ∧
    (add st time b0 b1 b2).1.time_range_cache = st.time_range_cache := by
  rw [add_noteOn_pos st time b0 b1 b2 ch key vel ht hp hv]
  obtain ⟨n, hn, hk, hc⟩ := hex
  obtain ⟨r, hr⟩ := replaceFirst_of_mem (fun n => n.key == key && n.channel == ch)
      { t_start := time, idx_on := st.store.length, t_end := 0, idx_off := 0,
        channel := ch, key := key, vel := vel } st.in_flight
      ⟨n, hn, by simp [hk, hc]⟩
  simp [add_on, hr]

/-- C10 witness: the retrigger on the one-in-flight store. -/
theorem C10_retrigger_caches_witness :
    (add c7Store (1/2) 144 60 80).1.note_range_cache = c7Store.note_range_cache ∧
    (add c7Store (1/2) 144 60 80).1.time_range_cache = c7Store.time_range_cache :=
  C10_retrigger_caches_unchanged c7Store (1/2) 144 60 80 0 60 80
    (by decide) (by decide) (by decide)
    ⟨{ t_start := 0, idx_on := 0, t_end := 0, idx_off := 0,
       channel := 0, key := 60, vel := 100 }, by decide, by decide, by decide⟩

/-- The reduction step never moves farther from `time` than its left
argument allows only when strictly closer, so the result is at most as
far as the left argument. -/
theorem pick_le_left (time : ℚ) (a b : Bar) :
    |(pick time a b).t - time| ≤ |a.t - time| := by
  unfold pick
  split
  · exact le_rfl
  · next h => exact le_of_not_lt h

/-- The reduction step result is at most as far as its right argument. -/
theorem pick_le_right (time : ℚ) (a b : Bar) :
    |(pick time a b).t - time| ≤ |b.t - time| := by
  unfold pick
  split
  · next h => exact le_of_lt h
  · exact le_rfl

/-- The left fold of `pick` minimizes the distance to `time` over the
seed and the folded list. -/
theorem foldl_pick_min (time : ℚ) :
    ∀ (l : List Bar) (a : Bar), ∀ x ∈ a :: l,
      |(l.foldl (pick time) a).t - time| ≤ |x.t - time| := by
  intro l
  induction l with
  | nil =>
    intro a x hx
    rw [List.mem_singleton.mp hx]
    exact le_rfl
  | cons b l ih =>
    intro a x hx
    rw [List.foldl_cons]
    rcases List.mem_cons.mp hx with h1 | hx2
    · rw [h1]
      exact le_trans (ih (pick time a b) _ (List.mem_cons_self _ _)) (pick_le_left time a b)
    · rcases List.mem_cons.mp hx2 with h2 | h3
      · rw [h2]
        exact le_trans (ih (pick time a b) _ (List.mem_cons_self _ _)) (pick_le_right time a b)
      · exact ih (pick time a b) x (List.mem_cons_of_mem _ h3)

/-- The left fold of `pick` lands at a position of the seeded list after
which every element is strictly farther from `time`: with the tie-break
of `pick`, the last minimal element wins. -/
theorem foldl_pick_split (time : ℚ) :
    ∀ (l : List Bar) (a : Bar), ∃ l1 l2,
      a :: l = l1 ++ (l.foldl (pick time) a) :: l2 ∧
      ∀ x ∈ l2, |(l.foldl (pick time) a).t - time| < |x.t - time| := by
  intro l
  induction l with
  | nil => exact fun a => ⟨[], [], rfl, by simp⟩
  | cons b l ih =>
    intro a
    rw [List.foldl_cons]
    obtain ⟨m1, m2, hsplit, hstrict⟩ := ih (pick time a b)
    by_cases hab : |a.t - time| < |b.t - time|
    · have hpick : pick time a b = a := if_pos hab
      nth_rewrite 1 [hpick] at hsplit
      cases m1 with
      | nil =>
        rw [List.nil_append] at hsplit
        have hra : l.foldl (pick time) (pick time a b) = a :=
          ((List.cons_eq_cons.mp hsplit).1).symm
        have hm2 : l = m2 := (List.cons_eq_cons.mp hsplit).2
        refine ⟨[], b :: l, ?_, ?_⟩
        · rw [List.nil_append, hra]
        · intro x hx
          rcases List.mem_cons.mp hx with h1 | h2
          · rw [h1, hra]
            exact hab
          · exact hstrict x (hm2 ▸ h2)
      | cons c m1 =>
        have hl : l = m1 ++ l.foldl (pick time) (pick time a b) :: m2 :=
          (List.cons_eq_cons.mp hsplit).2
        refine ⟨a :: b :: m1, m2, ?_, hstrict⟩
        rw [List.cons_append, List.cons_append, ← hl]
    · have hpick : pick time a b = b := if_neg hab
      nth_rewrite 1 [hpick] at hsplit
      exact ⟨a :: m1, m2, by rw [List.cons_append, ← hsplit], hstrict⟩

/-- C8 (amended): `nearestBar(time, n)` returns none exactly when no bar
number is divisible by `n`; otherwise it returns a bar of that filtered
list at minimal distance `abs(bar.t - time)`, and on ties the bar
encountered last under the left fold wins: every bar after the result
in the filtered list is strictly farther from `time`. -/
theorem C8_nearest_bar_spec (st : MidiStore) (time : ℚ) (n : ℤ) :
    (nearest_bar st time n = none ↔ get_bars st n = []) ∧
    (∀ b, nearest_bar st time n = some b →
      (∀ x ∈ get_bars st n, |b.t - time| ≤ |x.t - time|) ∧
      ∃ l1 l2, get_bars st n = l1 ++ b :: l2 ∧
        ∀ x ∈ l2, |b.t - time| < |x.t - time|) := by
  unfold nearest_bar
  rcases hg : get_bars st n with - | ⟨hd, tl⟩
  · simp
  · constructor
    · simp
    · intro b hb
      have hb1 : some (List.foldl (pick time) hd tl) = some b := hb
      have hb2 : List.foldl (pick time) hd tl = b := Option.some.inj hb1
      constructor
      · intro x hx
        rw [← hb2]
        exact foldl_pick_min time tl hd x hx
      · obtain ⟨l1, l2, hsp, hstr⟩ := foldl_pick_split time tl hd
        rw [hb2] at hsp hstr
        exact ⟨l1, l2, hsp, hstr⟩

/-- C8 witness: minimality of the returned bar at the tie store. -/
theorem C8_nearest_bar_witness :
    (∀ x ∈ get_bars tieBarStore 1, |(Bar.mk 0 3).t - 2| ≤ |x.t - 2|) ∧
    get_bars tieBarStore 1 ≠ [] :=
  ⟨((C8_nearest_bar_spec tieBarStore 2 1).2 ⟨0, 3⟩ (by decide)).1, by decide⟩

/-- The hanging-note loop over the paired note list emits, in order and
at delta 0, the stored NoteOn of exactly the notes satisfying the
hanging condition, provided their NoteOn indices are in range. -/
theorem onsLoop_char (st : MidiStore) (t0 t1 pps : ℚ) :
    ∀ notes : List Note,
      (∀ n ∈ notes, hangingCond t0 t1 pps n = true → n.idx_on < st.store.length) →
      onsLoop st t0 pps (notes.map (fun n => (n, selNote t0 t1 n))) =
        (notes.filter (hangingCond t0 t1 pps)).map
          (fun n => ⟨0, storeKind st n.idx_on⟩) := by
  intro notes
  induction notes with
  | nil => intro _; rfl
  | cons n rest ih =>
    intro hval
    have hrest := fun m hm => hval m (List.mem_cons_of_mem _ hm)
    by_cases hc : hangingCond t0 t1 pps n = true
    · have hidx : n.idx_on < st.store.length := hval n (List.mem_cons_self _ _) hc
      obtain ⟨e, he⟩ : ∃ e, st.store[n.idx_on]? = some e :=
        ⟨st.store[n.idx_on], List.getElem?_eq_getElem hidx⟩
      have hkind : storeKind st n.idx_on = TrackKind.midi e.2.1 e.2.2 := by
        simp [storeKind, he]
      simp only [List.map_cons, onsLoop, List.filter_cons]
      rw [show (selNote t0 t1 n && decide (n.t_start < t0)
          && decide (0 < roundAway ((n.t_end - t0) * pps)))
          = hangingCond t0 t1 pps n from rfl]
      rw [hc]
      simp only [he, ite_true, ih hrest, List.map_cons, hkind]
    · have hc2 : hangingCond t0 t1 pps n = false := by
        simpa using hc
      simp only [List.map_cons, onsLoop, List.filter_cons]
      rw [show (selNote t0 t1 n && decide (n.t_start < t0)
          && decide (0 < roundAway ((n.t_end - t0) * pps)))
          = hangingCond t0 t1 pps n from rfl]
      rw [hc2]
      simp only [Bool.false_eq_true, ite_false, ih hrest]

/-- C6: a re-issued NoteOn is written at tick 0 exactly for the
overlapping notes whose start lies before the window and whose clipped
end tick is strictly positive, each re-issuing its stored NoteOn
event. -/
theorem C6_hanging_noteOns (st : MidiStore) (t0 t1 pps : ℚ)
    (hval : ∀ n ∈ st.notes, n.idx_on < st.store.length) :
    hangingOns st t0 t1 pps =
      (st.notes.filter (hangingCond t0 t1 pps)).map
        (fun n => ⟨0, storeKind st n.idx_on⟩) :=
  onsLoop_char st t0 t1 pps st.notes (fun n hn _ => hval n hn)

/-- C6 witness: the hanging note of the window `[2, 5]` at tempo 120. -/
theorem C6_hanging_noteOns_witness :
    hangingOns c6Store 2 5 (ppsOf 120) =
      (c6Store.notes.filter (hangingCond 2 5 (ppsOf 120))).map
        (fun n => ⟨0, storeKind c6Store n.idx_on⟩) ∧
    (c6Store.notes.filter (hangingCond 2 5 (ppsOf 120))).map
        (fun n => (⟨0, storeKind c6Store n.idx_on⟩ : TrackEvt)) =
      [⟨0, TrackKind.midi 0 (MidiMsg.noteOn 60 100)⟩] :=
  ⟨C6_hanging_noteOns c6Store 2 5 (ppsOf 120) (by decide), by decide⟩

/-- With trailing delta 0 the spec shape degenerates to all-zero
deltas. -/
theorem specIncompleteOffs_zero (st : MidiStore) :
    ∀ l : List Note,
      specIncompleteOffs st 0 l = l.map (fun y => ⟨0, storeKind st y.idx_off⟩) := by
  intro l
  cases l with
  | nil => rfl
  | cons x rest => simp [specIncompleteOffs]

/-- Characterization of the incomplete-note loop: writing `act` for the
sublist of active pairs (selected with `t_end > t1`), the loop emits the
spec shape seeded at `d` over the active notes, leaves `delta_end` at
`d` only when nothing fired, and advances `sum` by `d` exactly once as
soon as anything fired — provided the active NoteOff indices are in
range. -/
theorem offsLoop_char (st : MidiStore) (t1 : ℚ) :
    ∀ (L : List (Note × Bool)) (d : ℕ) (sum : ℤ),
      (∀ p ∈ L, (p.2 && decide (p.1.t_end > t1)) = true →
        p.1.idx_off < st.store.length) →
      (offsLoop st t1 L d sum).1 =
        specIncompleteOffs st d
          ((L.filter (fun p => p.2 && decide (p.1.t_end > t1))).map Prod.fst) ∧
      (offsLoop st t1 L d sum).2.1 =
        (if L.filter (fun p => p.2 && decide (p.1.t_end > t1)) = [] then d else 0) ∧
      (offsLoop st t1 L d sum).2.2 =
        (if L.filter (fun p => p.2 && decide (p.1.t_end > t1)) = [] then sum
         else sum + d) := by
  intro L
  induction L with
  | nil => exact fun d sum _ => ⟨rfl, rfl, rfl⟩
  | cons p rest ih =>
    intro d sum hval
    have hrest := fun q hq => hval q (List.mem_cons_of_mem _ hq)
    by_cases hp : (p.2 && decide (p.1.t_end > t1)) = true
    · have hidx := hval p (List.mem_cons_self _ _) hp
      obtain ⟨e, he⟩ : ∃ e, st.store[p.1.idx_off]? = some e :=
        ⟨st.store[p.1.idx_off], List.getElem?_eq_getElem hidx⟩
      have hkind : storeKind st p.1.idx_off = TrackKind.midi e.2.1 e.2.2 := by
        simp [storeKind, he]
      obtain ⟨ih1, ih2, ih3⟩ := ih 0 (sum + d) hrest
      refine ⟨?_, ?_, ?_⟩
      · simp only [offsLoop, hp, if_true, he, List.filter_cons, List.map_cons]
        rw [ih1, specIncompleteOffs_zero, specIncompleteOffs, hkind]
      · simp only [offsLoop, hp, if_true, he, List.filter_cons]
        rw [ih2]
        simp
      · simp only [offsLoop, hp, if_true, he, List.filter_cons]
        rw [ih3]
        simp
    · have hp2 : (p.2 && decide (p.1.t_end > t1)) = false := by simpa using hp
      obtain ⟨ih1, ih2, ih3⟩ := ih d sum hrest
      refine ⟨?_, ?_, ?_⟩
      · simp only [offsLoop, hp2, Bool.false_eq_true, if_false, List.filter_cons]
        rw [ih1]
      · simp only [offsLoop, hp2, Bool.false_eq_true, if_false, List.filter_cons]
        rw [ih2]
      · simp only [offsLoop, hp2, Bool.false_eq_true, if_false, List.filter_cons]
        rw [ih3]

/-- Pairing the notes with their selection flag and filtering the active
pairs projects back to the note-level filter. -/
theorem pairSelect_filter_map (t0 t1 : ℚ) :
    ∀ l : List Note,
      ((l.map (fun n => (n, selNote t0 t1 n))).filter
          (fun p => p.2 && decide (p.1.t_end > t1))).map Prod.fst
        = l.filter (fun n => selNote t0 t1 n && decide (n.t_end > t1)) := by
  intro l
  induction l with
  | nil => rfl
  | cons n rest ih =>
    by_cases h : (selNote t0 t1 n && decide (n.t_end > t1)) = true
    · simp only [List.map_cons, List.filter_cons, h, if_true, ih]
    · have h2 : (selNote t0 t1 n && decide (n.t_end > t1)) = false := by simpa using h
      simp only [List.map_cons, List.filter_cons, h2, Bool.false_eq_true, if_false, ih]

/-- C4 (amended): the End-of-Track marker is appended at whatever value
`delta_end` holds after the incomplete-note pass — the originally
computed trailing delta when no incomplete-note NoteOff was re-issued,
and 0 otherwise (the claim stated the two cases the other way round). -/
theorem C4_end_of_track_delta (st : MidiStore) (t0 t1 tempo : ℚ)
    (hval : ∀ n ∈ st.notes, n.idx_off < st.store.length) :
    (buildTrack st t0 t1 tempo).getLast? =
      some ⟨(if incompleteNotes st t0 t1 = [] then exportDeltaEnd st t0 t1 tempo
        else 0), TrackKind.endOfTrack⟩ := by
  have hlast : (buildTrack st t0 t1 tempo).getLast? =
      some ⟨(offsResult st t0 t1 tempo).2.1, TrackKind.endOfTrack⟩ := by
    unfold buildTrack
    rw [List.getLast?_concat]
  rw [hlast]
  have hval2 : ∀ p ∈ notesAllSelect st t0 t1,
      (p.2 && decide (p.1.t_end > t1)) = true → p.1.idx_off < st.store.length := by
    intro p hp _
    obtain ⟨n, hn, rfl⟩ := List.mem_map.mp hp
    exact hval n hn
  obtain ⟨-, h2, -⟩ := offsLoop_char st t1 (notesAllSelect st t0 t1)
      (exportDeltaEnd st t0 t1 tempo) (sumAfterEvents st t0 t1 tempo) hval2
  have hmap : ((notesAllSelect st t0 t1).filter
        (fun p => p.2 && decide (p.1.t_end > t1))).map Prod.fst
      = incompleteNotes st t0 t1 := pairSelect_filter_map t0 t1 st.notes
  unfold offsResult
  rw [h2]
  by_cases hemp : incompleteNotes st t0 t1 = []
  · rw [if_pos hemp, if_pos (by rwa [← hmap, List.map_eq_nil_iff] at hemp)]
  · rw [if_neg hemp, if_neg (fun hc => hemp (by rw [← hmap, hc]; rfl))]

/-- C4 witness: two incomplete notes force the End-of-Track to delta 0. -/
theorem C4_end_of_track_delta_witness :
    (buildTrack c5Store 1 2 60).getLast? =
      some ⟨(if incompleteNotes c5Store 1 2 = [] then exportDeltaEnd c5Store 1 2 60
        else 0), TrackKind.endOfTrack⟩ :=
  C4_end_of_track_delta c5Store 1 2 60 (by decide)

/-- Rounding half away from zero is nonnegative on nonnegative input. -/
theorem roundAway_nonneg (q : ℚ) (h : 0 ≤ q) : 0 ≤ roundAway q := by
  unfold roundAway
  rw [if_neg (not_lt.mpr h)]
  exact Int.floor_nonneg.mpr (by linarith)

/-- Rounding half away from zero is monotone. -/
theorem roundAway_mono {q r : ℚ} (h : q ≤ r) : roundAway q ≤ roundAway r := by
  unfold roundAway
  by_cases hq : q < 0
  · by_cases hr : r < 0
    · rw [if_pos hq, if_pos hr]
      have hfl : ⌊-r + 1/2⌋ ≤ ⌊-q + 1/2⌋ := Int.floor_le_floor (by linarith)
      omega
    · rw [if_pos hq, if_neg hr]
      have h1 : (0 : ℤ) ≤ ⌊-q + 1/2⌋ := Int.floor_nonneg.mpr (by linarith)
      have h2 : (0 : ℤ) ≤ ⌊r + 1/2⌋ := Int.floor_nonneg.mpr (by linarith)
      omega
  · rw [if_neg hq, if_neg (show ¬ r < 0 by push_neg at hq ⊢; linarith)]
    exact Int.floor_le_floor (by linarith)

/-- The running tick of the event walk never exceeds a bound dominating
every written quantized tick. -/
theorem eventsLoop_sum_le (t0 t1 pps : ℚ) (T : ℤ) :
    ∀ (L : List (ℚ × ℕ × MidiMsg)) (sum : ℤ),
      (∀ e ∈ L, t0 ≤ e.1 → e.1 ≤ t1 → roundAway ((e.1 - t0) * pps) ≤ T) →
      sum ≤ T → (eventsLoop t0 t1 pps L sum).2 ≤ T := by
  intro L
  induction L with
  | nil => exact fun sum _ hs => hs
  | cons e rest ih =>
    intro sum hL hs
    by_cases he : (decide (t0 ≤ e.1) && decide (e.1 ≤ t1)) = true
    · have h12 : t0 ≤ e.1 ∧ e.1 ≤ t1 := by simpa using he
      have hq := hL e (List.mem_cons_self _ _) h12.1 h12.2
      simp only [eventsLoop, he, if_true]
      exact ih _ (fun x hx => hL x (List.mem_cons_of_mem _ hx)) hq
    · have he2 : (decide (t0 ≤ e.1) && decide (e.1 ≤ t1)) = false := by simpa using he
      simp only [eventsLoop, he2, Bool.false_eq_true, if_false]
      exact ih _ (fun x hx => hL x (List.mem_cons_of_mem _ hx)) hs

/-- The saturating-decrement of the truncated difference equals the
spec formula `max 0 (endTick - sum - 1)` whenever the difference is
nonnegative and fits in 32 bits. -/
theorem deltaEnd0_eq_max (endTick sum : ℤ) (h0 : sum ≤ endTick)
    (hfit : endTick - sum < 4294967296) :
    (deltaEnd0 endTick sum : ℤ) = max 0 (endTick - sum - 1) := by
  unfold deltaEnd0 as_u32
  rw [Int.emod_eq_of_lt (by omega) hfit]
  rcases eq_or_lt_of_le h0 with heq | hlt
  · rw [max_eq_left (by omega)]
    omega
  · rw [max_eq_right (by omega)]
    omega

/-- C5: the trailing delta equals `max 0 (endTick - runningTick - 1)`;
the incomplete-note loop re-issues the stored NoteOff of every selected
note with `t_end > t1`, the first at that trailing delta and every
subsequent one at delta 0, and advances the running tick by the trailing
delta exactly once (not at all when no note is incomplete). -/
theorem C5_incomplete_offs_spec (st : MidiStore) (t0 t1 tempo : ℚ)
    (h01 : t0 ≤ t1) (htempo : 0 ≤ tempo)
    (hval : ∀ n ∈ st.notes, n.idx_off < st.store.length)
    (hfit : endTickOf t0 t1 (ppsOf tempo) - sumAfterEvents st t0 t1 tempo
      < 4294967296) :
    ((exportDeltaEnd st t0 t1 tempo : ℤ) =
      max 0 (endTickOf t0 t1 (ppsOf tempo) - sumAfterEvents st t0 t1 tempo - 1)) ∧
    (offsResult st t0 t1 tempo).1 =
      specIncompleteOffs st (exportDeltaEnd st t0 t1 tempo) (incompleteNotes st t0 t1) ∧
    (offsResult st t0 t1 tempo).2.2 =
      (if incompleteNotes st t0 t1 = [] then sumAfterEvents st t0 t1 tempo
       else sumAfterEvents st t0 t1 tempo + (exportDeltaEnd st t0 t1 tempo : ℤ)) := by
  have hpps : 0 ≤ ppsOf tempo := by
    unfold ppsOf
    exact mul_nonneg (by norm_num) (div_nonneg htempo (by norm_num))
  have hend0 : 0 ≤ endTickOf t0 t1 (ppsOf tempo) :=
    roundAway_nonneg _ (mul_nonneg (sub_nonneg.mpr h01) hpps)
  have hle : sumAfterEvents st t0 t1 tempo ≤ endTickOf t0 t1 (ppsOf tempo) := by
    unfold sumAfterEvents
    refine eventsLoop_sum_le t0 t1 (ppsOf tempo) _ st.store 0 ?_ hend0
    intro e _ he0 he1
    exact roundAway_mono (mul_le_mul_of_nonneg_right (by linarith) hpps)
  have hval2 : ∀ p ∈ notesAllSelect st t0 t1,
      (p.2 && decide (p.1.t_end > t1)) = true → p.1.idx_off < st.store.length := by
    intro p hp _
    obtain ⟨n, hn, rfl⟩ := List.mem_map.mp hp
    exact hval n hn
  obtain ⟨h1, -, h3⟩ := offsLoop_char st t1 (notesAllSelect st t0 t1)
      (exportDeltaEnd st t0 t1 tempo) (sumAfterEvents st t0 t1 tempo) hval2
  have hmap : ((notesAllSelect st t0 t1).filter
        (fun p => p.2 && decide (p.1.t_end > t1))).map Prod.fst
      = incompleteNotes st t0 t1 := pairSelect_filter_map t0 t1 st.notes
  refine ⟨deltaEnd0_eq_max _ _ hle hfit, ?_, ?_⟩
  · unfold offsResult
    rw [h1, hmap]
  · unfold offsResult
    rw [h3]
    by_cases hemp : incompleteNotes st t0 t1 = []
    · rw [if_pos hemp, if_pos (by rwa [← hmap, List.map_eq_nil_iff] at hemp)]
    · rw [if_neg hemp, if_neg (fun hc => hemp (by rw [← hmap, hc]; rfl))]

/-- C5 witness: window `[1, 2]` at tempo 60 over two incomplete notes. -/
theorem C5_incomplete_offs_witness :
    ((exportDeltaEnd c5Store 1 2 60 : ℤ) =
      max 0 (endTickOf 1 2 (ppsOf 60) - sumAfterEvents c5Store 1 2 60 - 1)) ∧
    (offsResult c5Store 1 2 60).1 =
      specIncompleteOffs c5Store (exportDeltaEnd c5Store 1 2 60)
        (incompleteNotes c5Store 1 2) ∧
    (offsResult c5Store 1 2 60).2.2 =
      (if incompleteNotes c5Store 1 2 = [] then sumAfterEvents c5Store 1 2 60
       else sumAfterEvents c5Store 1 2 60 + (exportDeltaEnd c5Store 1 2 60 : ℤ)) :=
  C5_incomplete_offs_spec c5Store 1 2 60 (by norm_num) (by norm_num)
    (by decide) (by decide)

/-- Widening is reflexive. -/
theorem widens_rfl {α : Type} [Preorder α] (a : Option (α × α)) : widens a a :=
  fun lo hi h => ⟨lo, hi, h, le_rfl, le_rfl⟩

/-- Widening is transitive. -/
theorem widens_trans {α : Type} [Preorder α] {a b c : Option (α × α)}
    (h1 : widens a b) (h2 : widens b c) : widens a c := by
  intro lo hi h
  obtain ⟨l2, h2v, hb, hl, hh⟩ := h1 lo hi h
  obtain ⟨l3, h3v, hc, hl2, hh2⟩ := h2 l2 h2v hb
  exact ⟨l3, h3v, hc, le_trans hl2 hl, le_trans hh hh2⟩

/-- One `update_ranges` call only widens both caches. -/
theorem update_ranges_widens (st : MidiStore) (k : ℕ) (t : ℚ) :
    widens st.note_range_cache (update_ranges st k t).note_range_cache ∧
    widens st.time_range_cache (update_ranges st k t).time_range_cache := by
  constructor
  · intro lo hi hsome
    by_cases h1 : k < lo
    · exact ⟨k, hi, by simp [update_ranges, hsome, h1], le_of_lt h1, le_rfl⟩
    · by_cases h2 : hi < k
      · exact ⟨lo, k, by simp [update_ranges, hsome, h1, h2], le_rfl, le_of_lt h2⟩
      · exact ⟨lo, hi, by simp [update_ranges, hsome, h1, h2], le_rfl, le_rfl⟩
  · intro lo hi hsome
    by_cases h1 : t < lo
    · exact ⟨t, hi, by simp [update_ranges, hsome, h1], le_of_lt h1, le_rfl⟩
    · by_cases h2 : hi < t
      · exact ⟨lo, t, by simp [update_ranges, hsome, h1, h2], le_rfl, le_of_lt h2⟩
      · exact ⟨lo, hi, by simp [update_ranges, hsome, h1, h2], le_rfl, le_rfl⟩

/-- After `update_ranges` both caches are populated. -/
theorem update_ranges_ne_none (st : MidiStore) (k : ℕ) (t : ℚ) :
    (update_ranges st k t).note_range_cache ≠ none ∧
    (update_ranges st k t).time_range_cache ≠ none := by
  constructor
  · rcases h : st.note_range_cache with - | ⟨lo, hi⟩
    · simp [update_ranges, h]
    · by_cases h1 : k < lo
      · simp [update_ranges, h, h1]
      · by_cases h2 : hi < k <;> simp [update_ranges, h, h1, h2]
  · rcases h : st.time_range_cache with - | ⟨lo, hi⟩
    · simp [update_ranges, h]
    · by_cases h1 : t < lo
      · simp [update_ranges, h, h1]
      · by_cases h2 : hi < t <;> simp [update_ranges, h, h1, h2]

/-- A successful first-match overwrite happens on a nonempty list and
produces a nonempty list. -/
theorem replaceFirst_ne_nil (p : Note → Bool) (x : Note) (l r : List Note)
    (h : replaceFirst p x l = some r) : l ≠ [] ∧ r ≠ [] := by
  cases l with
  | nil => simp [replaceFirst] at h
  | cons a rest =>
    refine ⟨by simp, ?_⟩
    unfold replaceFirst at h
    by_cases ha : p a
    · rw [if_pos ha] at h
      obtain rfl := Option.some.inj h
      simp
    · rw [if_neg ha] at h
      rcases ho : replaceFirst p x rest with - | r2
      · rw [ho] at h; simp at h
      · rw [ho] at h
        simp only [Option.map_some'] at h
        obtain rfl := Option.some.inj h
        simp

/-- `add_on` only widens the caches. -/
theorem add_on_widens (st : MidiStore) (time : ℚ) (idx ch : ℕ) (msg : MidiMsg) :
    widens st.note_range_cache (add_on st time idx ch msg).note_range_cache ∧
    widens st.time_range_cache (add_on st time idx ch msg).time_range_cache := by
  cases msg with
  | noteOn key vel =>
    rcases hrf : replaceFirst (fun n => n.key == key && n.channel == ch)
        { t_start := time, idx_on := idx, t_end := 0, idx_off := 0,
          channel := ch, key := key, vel := vel } st.in_flight with - | fl
    · simp only [add_on, hrf]
      exact update_ranges_widens st key time
    · simp only [add_on, hrf]
      exact ⟨widens_rfl _, widens_rfl _⟩
  | noteOff key vel => exact ⟨widens_rfl _, widens_rfl _⟩
  | aftertouch key vel => exact ⟨widens_rfl _, widens_rfl _⟩
  | controlChange num value => exact ⟨widens_rfl _, widens_rfl _⟩
  | programChange program => exact ⟨widens_rfl _, widens_rfl _⟩
  | channelAftertouch vel => exact ⟨widens_rfl _, widens_rfl _⟩
  | pitchBend lsb msb => exact ⟨widens_rfl _, widens_rfl _⟩

/-- `add_off` only widens the caches. -/
theorem add_off_widens (st : MidiStore) (time : ℚ) (idx ch : ℕ) (msg : MidiMsg) :
    widens st.note_range_cache (add_off st time idx ch msg).note_range_cache ∧
    widens st.time_range_cache (add_off st time idx ch msg).time_range_cache := by
  cases msg with
  | noteOff key vel =>
    rcases hex : extractFirst (fun n => n.key == key && n.channel == ch)
        st.in_flight with - | ⟨note0, fl⟩
    · simp only [add_off, hex]
      exact ⟨widens_rfl _, widens_rfl _⟩
    · simp only [add_off, hex]
      exact update_ranges_widens { st with in_flight := fl } note0.key time
  | noteOn key vel =>
    by_cases hv : vel = 0
    · subst hv
      rcases hex : extractFirst (fun n => n.key == key && n.channel == ch)
          st.in_flight with - | ⟨note0, fl⟩
      · simp [add_off, hex]
        exact ⟨widens_rfl _, widens_rfl _⟩
      · simp [add_off, hex]
        exact update_ranges_widens { st with in_flight := fl } note0.key time
    · simp [add_off, hv]
      exact ⟨widens_rfl _, widens_rfl _⟩
  | aftertouch key vel => exact ⟨widens_rfl _, widens_rfl _⟩
  | controlChange num value => exact ⟨widens_rfl _, widens_rfl _⟩
  | programChange program => exact ⟨widens_rfl _, widens_rfl _⟩
  | channelAftertouch vel => exact ⟨widens_rfl _, widens_rfl _⟩
  | pitchBend lsb msb => exact ⟨widens_rfl _, widens_rfl _⟩

/-- One `add` call only widens the caches. -/
theorem add_widens (st : MidiStore) (time : ℚ) (b0 b1 b2 : ℕ) :
    widens st.note_range_cache (add st time b0 b1 b2).1.note_range_cache ∧
    widens st.time_range_cache (add st time b0 b1 b2).1.time_range_cache := by
  by_cases ht : time < lastTime st
  · simp only [add, ht, if_true]
    exact ⟨widens_rfl _, widens_rfl _⟩
  · rcases hp : parseLive b0 b1 b2 with ⟨ch, msg⟩ | - | -
    · rcases msg with ⟨k, v⟩ | ⟨k, v⟩ | ⟨k, v⟩ | ⟨c, v⟩ | pr | v | ⟨lb, mb⟩
      · simp [add, ht, hp]
        exact add_off_widens
          { st with store := st.store ++ [(time, ch, MidiMsg.noteOff k v)] }
          time st.store.length ch (MidiMsg.noteOff k v)
      · by_cases hv : v = 0
        · subst hv
          simp [add, ht, hp]
          exact add_off_widens
            { st with store := st.store ++ [(time, ch, MidiMsg.noteOn k 0)] }
            time st.store.length ch (MidiMsg.noteOn k 0)
        · simp [add, ht, hp, hv]
          exact add_on_widens
            { st with store := st.store ++ [(time, ch, MidiMsg.noteOn k v)] }
            time st.store.length ch (MidiMsg.noteOn k v)
      · simp [add, ht, hp]
        exact ⟨widens_rfl _, widens_rfl _⟩
      · simp [add, ht, hp]
        exact ⟨widens_rfl _, widens_rfl _⟩
      · simp [add, ht, hp]
        exact ⟨widens_rfl _, widens_rfl _⟩
      · simp [add, ht, hp]
        exact ⟨widens_rfl _, widens_rfl _⟩
      · simp [add, ht, hp]
        exact ⟨widens_rfl _, widens_rfl _⟩
    · simp [add, ht, hp]
      exact ⟨widens_rfl _, widens_rfl _⟩
    · simp [add, ht, hp]
      exact ⟨widens_rfl _, widens_rfl _⟩

/-- A whole sequence of `add` calls only widens the caches. -/
theorem addMany_widens (ops : List AddOp) :
    ∀ st : MidiStore,
      widens st.note_range_cache (addMany st ops).note_range_cache ∧
      widens st.time_range_cache (addMany st ops).time_range_cache := by
  induction ops with
  | nil => exact fun st => ⟨widens_rfl _, widens_rfl _⟩
  | cons op rest ih =>
    intro st
    have hstep := add_widens st op.1 op.2.1 op.2.2.1 op.2.2.2
    have hrest := ih (add st op.1 op.2.1 op.2.2.1 op.2.2.2).1
    exact ⟨widens_trans hstep.1 hrest.1, widens_trans hstep.2 hrest.2⟩

/-- `add_on` preserves the cache emptiness invariant. -/
theorem add_on_inv (st : MidiStore) (time : ℚ) (idx ch : ℕ) (msg : MidiMsg)
    (h : cachesNoneIffEmpty st) : cachesNoneIffEmpty (add_on st time idx ch msg) := by
  cases msg with
  | noteOn key vel =>
    rcases hrf : replaceFirst (fun n => n.key == key && n.channel == ch)
        { t_start := time, idx_on := idx, t_end := 0, idx_off := 0,
          channel := ch, key := key, vel := vel } st.in_flight with - | fl
    · simp only [add_on, hrf]
      have hne := update_ranges_ne_none st key time
      constructor
      · exact iff_of_false hne.1 (fun hc => by simpa using congrArg List.length hc.1)
      · exact iff_of_false hne.2 (fun hc => by simpa using congrArg List.length hc.1)
    · simp only [add_on, hrf]
      have hfl := replaceFirst_ne_nil _ _ _ _ hrf
      constructor
      · exact iff_of_false (fun hnone => hfl.1 (h.1.mp hnone).1) (fun hc => hfl.2 hc.1)
      · exact iff_of_false (fun hnone => hfl.1 (h.2.mp hnone).1) (fun hc => hfl.2 hc.1)
  | noteOff key vel => exact h
  | aftertouch key vel => exact h
  | controlChange num value => exact h
  | programChange program => exact h
  | channelAftertouch vel => exact h
  | pitchBend lsb msb => exact h

/-- `add_off` preserves the cache emptiness invariant. -/
theorem add_off_inv (st : MidiStore) (time : ℚ) (idx ch : ℕ) (msg : MidiMsg)
    (h : cachesNoneIffEmpty st) : cachesNoneIffEmpty (add_off st time idx ch msg) := by
  have hsome : ∀ key, extractFirst (fun n => n.key == key && n.channel == ch)
        st.in_flight = extractFirst (fun n => n.key == key && n.channel == ch)
        st.in_flight := fun _ => rfl
  cases msg with
  | noteOff key vel =>
    rcases hex : extractFirst (fun n => n.key == key && n.channel == ch)
        st.in_flight with - | ⟨note0, fl⟩
    · simp only [add_off, hex]
      exact h
    · simp only [add_off, hex]
      have hne := update_ranges_ne_none { st with in_flight := fl } note0.key time
      constructor
      · exact iff_of_false hne.1 (fun hc => by simpa using congrArg List.length hc.2)
      · exact iff_of_false hne.2 (fun hc => by simpa using congrArg List.length hc.2)
  | noteOn key vel =>
    by_cases hv : vel = 0
    · subst hv
      rcases hex : extractFirst (fun n => n.key == key && n.channel == ch)
          st.in_flight with - | ⟨note0, fl⟩
      · simp [add_off, hex]
        exact h
      · simp [add_off, hex]
        have hne := update_ranges_ne_none { st with in_flight := fl } note0.key time
        constructor
        · exact iff_of_false hne.1 (fun hc => by simpa using congrArg List.length hc.2)
        · exact iff_of_false hne.2 (fun hc => by simpa using congrArg List.length hc.2)
    · simp [add_off, hv]
      exact h
  | aftertouch key vel => exact h
  | controlChange num value => exact h
  | programChange program => exact h
  | channelAftertouch vel => exact h
  | pitchBend lsb msb => exact h

/-- One `add` call preserves the cache emptiness invariant. -/
theorem add_preserves_inv (st : MidiStore) (time : ℚ) (b0 b1 b2 : ℕ)
    (h : cachesNoneIffEmpty st) : cachesNoneIffEmpty (add st time b0 b1 b2).1 := by
  by_cases ht : time < lastTime st
  · simp only [add, ht, if_true]
    exact h
  · rcases hp : parseLive b0 b1 b2 with ⟨ch, msg⟩ | - | -
    · rcases msg with ⟨k, v⟩ | ⟨k, v⟩ | ⟨k, v⟩ | ⟨c, v⟩ | pr | v | ⟨lb, mb⟩
      · simp [add, ht, hp]
        exact add_off_inv
          { st with store := st.store ++ [(time, ch, MidiMsg.noteOff k v)] }
          time st.store.length ch (MidiMsg.noteOff k v) h
      · by_cases hv : v = 0
        · subst hv
          simp [add, ht, hp]
          exact add_off_inv
            { st with store := st.store ++ [(time, ch, MidiMsg.noteOn k 0)] }
            time st.store.length ch (MidiMsg.noteOn k 0) h
        · simp [add, ht, hp, hv]
          exact add_on_inv
            { st with store := st.store ++ [(time, ch, MidiMsg.noteOn k v)] }
            time st.store.length ch (MidiMsg.noteOn k v) h
      · simp [add, ht, hp]
        exact h
      · simp [add, ht, hp]
        exact h
      · simp [add, ht, hp]
        exact h
      · simp [add, ht, hp]
        exact h
      · simp [add, ht, hp]
        exact h
    · simp [add, ht, hp]
      exact h
    · simp [add, ht, hp]
      exact h

/-- A whole sequence of `add` calls preserves the invariant. -/
theorem addMany_inv (ops : List AddOp) :
    ∀ st : MidiStore, cachesNoneIffEmpty st → cachesNoneIffEmpty (addMany st ops) := by
  induction ops with
  | nil => exact fun st h => h
  | cons op rest ih =>
    exact fun st h => ih _ (add_preserves_inv st op.1 op.2.1 op.2.2.1 op.2.2.2 h)

/-- Every store reached from the empty store satisfies the invariant. -/
theorem runAdds_inv (ops : List AddOp) : cachesNoneIffEmpty (runAdds ops) :=
  addMany_inv ops emptyStore ⟨iff_of_true rfl ⟨rfl, rfl⟩, iff_of_true rfl ⟨rfl, rfl⟩⟩

/-- C9: on every store reachable by appends, the key and time range
accessors return absent exactly while no note has ever started or
completed (witnessed by both note collections being empty), and across
any further sequence of appends the populated bounds only widen: the
minimum never increases and the maximum never decreases. -/
theorem C9_range_cache_spec (ops more : List AddOp) :
    (note_range (runAdds ops) = none ↔
      (runAdds ops).in_flight = [] ∧ (runAdds ops).notes = []) ∧
    (time_range (runAdds ops) = none ↔
      (runAdds ops).in_flight = [] ∧ (runAdds ops).notes = []) ∧
    widens (note_range (runAdds ops)) (note_range (addMany (runAdds ops) more)) ∧
    widens (time_range (runAdds ops)) (time_range (addMany (runAdds ops) more)) :=
  ⟨(runAdds_inv ops).1, (runAdds_inv ops).2,
   (addMany_widens more (runAdds ops)).1, (addMany_widens more (runAdds ops)).2⟩

/-- C9 witness: a completed note populates the key cache at (60, 60),
and a later lower note only widens it. -/
theorem C9_range_cache_witness :
    note_range (runAdds [((0 : ℚ), 144, 60, 100), ((1 : ℚ), 128, 60, 64)])
      = some (60, 60) ∧
    (∃ lo2 hi2,
      note_range (addMany (runAdds [((0 : ℚ), 144, 60, 100), ((1 : ℚ), 128, 60, 64)])
        [((2 : ℚ), 144, 55, 100), ((3 : ℚ), 128, 55, 64)]) = some (lo2, hi2) ∧
      lo2 ≤ 60 ∧ 60 ≤ hi2) :=
  ⟨by decide,
   (C9_range_cache_spec [((0 : ℚ), 144, 60, 100), ((1 : ℚ), 128, 60, 64)]
      [((2 : ℚ), 144, 55, 100), ((3 : ℚ), 128, 55, 64)]).2.2.1 60 60 (by decide)⟩

end Mucap
